import Mathlib

/-!
Verification of the application-launcher's catalog and launch-history
subsystem (src/history.rs, src/desktop.rs, src/config.rs).

Strings are modelled as `List Char`; file contents are the character
sequence of the (UTF-8) file.  Fallible filesystem operations are
modelled by explicit state passing over a `PathState` describing what
sits at the history path.  Machine integers (`u64`, `usize`) are
modelled as `Nat`; where the `u64` range matters (`str::parse::<u64>`)
the bound `2 ^ 64` is explicit.
-/

namespace Yeet

/-- An on-disk history event: `(timestamp, app_name)`, as in
`trim_history`'s `Vec<(u64, &str)>`. -/
abbrev Event := Nat × List Char

/-- The aggregated history mapping (the `HashMap<String, u64>` of
`load_history`), modelled as an association list with unique keys. -/
abbrev Hist := List (List Char × Nat)

/-! ### Generic string helpers (Rust std semantics) -/

/-- Rust `str::split_once(sep)`: split at the first occurrence of `sep`;
`none` when `sep` does not occur. -/
def splitOnce (sep : Char) : List Char → Option (List Char × List Char)
  | [] => none
  | x :: xs =>
    if x = sep then some ([], xs)
    else (splitOnce sep xs).map (fun p => (x :: p.1, p.2))

/-- Strip one trailing carriage return, as `str::lines` /
`BufRead::lines` do for a segment that was terminated by `'\n'`. -/
def stripCR (l : List Char) : List Char :=
  if l.getLast? = some '\r' then l.dropLast else l

/-- Worker for `strLines`: `cur` holds the current (reversed) segment. -/
def strLinesAux (cur : List Char) : List Char → List (List Char)
  | [] => if cur = [] then [] else [cur.reverse]
  | c :: cs =>
    if c = '\n' then stripCR cur.reverse :: strLinesAux [] cs
    else strLinesAux (c :: cur) cs

/-- Rust `str::lines` (also the per-line view of `BufRead::lines` on
valid UTF-8): split at `'\n'`, strip a `'\r'` that directly precedes a
`'\n'`, and do not yield a final empty segment after a trailing
newline. -/
def strLines (cs : List Char) : List (List Char) :=
  strLinesAux [] cs

/-- `true` when the content is empty or its last character is a
newline — the shape every content ever produced by `record_launch` or
`trim_history` has. -/
def endsNewline : List Char → Bool
  | [] => true
  | [c] => c = '\n'
  | _ :: c :: rest => endsNewline (c :: rest)

/-- Rust `str::parse::<u64>`: an optional leading `'+'`, then one or
more ASCII digits, with the value required to fit in 64 bits. -/
def parseU64 (cs : List Char) : Option Nat :=
  let ds := if cs.head? = some '+' then cs.tail else cs
  if ds = [] then none
  else if ds.all Char.isDigit then
    let v := ds.foldl (fun a c => a * 10 + (c.toNat - ('0').toNat)) 0
    if v < 2 ^ 64 then some v else none
  else none

/-- Fuel-based worker for the decimal rendering: the fuel only serves
structural recursion and is always sufficient at `n + 1`. -/
def natCharsAux (fuel n : Nat) : List Char :=
  match fuel with
  | 0 => []
  | fuel + 1 =>
    if n < 10 then [Char.ofNat (('0').toNat + n)]
    else natCharsAux fuel (n / 10) ++ [Char.ofNat (('0').toNat + n % 10)]

/-- The decimal rendering of a `u64` (Rust's `Display` for `u64`,
used by `writeln!("{}\t{}", ts, name)`). -/
def natChars (n : Nat) : List Char :=
  natCharsAux (n + 1) n

/-- UTF-8 byte length of one scalar value (what `Metadata::len` counts
for a file holding this text). -/
def charBytes (c : Char) : Nat :=
  if c.toNat < 128 then 1
  else if c.toNat < 2048 then 2
  else if c.toNat < 65536 then 3
  else 4

/-- UTF-8 byte length of a whole string / file content. -/
def utf8Len (cs : List Char) : Nat :=
  (cs.map charBytes).sum

/-! ### History line parsing (shared by `load_history` and
`trim_history`) -/

/-- One history line's parse, exactly as in both `load_history` and
`trim_history`: `line.split_once('\t')` and `ts_str.parse::<u64>()`. -/
def parseLine (line : List Char) : Option Event :=
  match splitOnce '\t' line with
  | none => none
  | some (tsStr, name) => (parseU64 tsStr).map (fun ts => (ts, name))

/-- All parsable events of a file content, in file order (the `entries`
vector built in `trim_history`). -/
def parsedEvents (content : List Char) : List Event :=
  (strLines content).filterMap parseLine

/-! ### `load_history` -/

/-- The effect of one valid line on the map:
`history.entry(name).or_insert(0)` then `if ts > *entry { *entry = ts }`. -/
def insertMax : Hist → List Char → Nat → Hist
  | [], name, ts => [(name, ts)]
  | (n, v) :: rest, name, ts =>
    if n = name then (n, max v ts) :: rest
    else (n, v) :: insertMax rest name ts

/-- Lookup in the aggregated map (`HashMap` indexing). -/
def histLookup : Hist → List Char → Option Nat
  | [], _ => none
  | (n, v) :: rest, name => if n = name then some v else histLookup rest name

/-- One loop iteration of `load_history`: skip the line unless it
splits at a tab and its first field parses as `u64`. -/
def loadStep (h : Hist) (line : List Char) : Hist :=
  match parseLine line with
  | none => h
  | some (ts, name) => insertMax h name ts

/-- `load_history`, given the file's content (the pure part after the
file was opened and read successfully). -/
def load_history (content : List Char) : Hist :=
  (strLines content).foldl loadStep []

/-- I/O error kinds relevant to this subsystem
(`std::io::ErrorKind`). -/
inductive IOErrKind where
  | invalidInput
  | permissionDenied
  | notFound
  | isADirectory
  | otherErr
deriving DecidableEq, Repr

/-- `load_history` including its error handling: `File::open` may fail
with any error (first argument `.error e`), and each line read by
`BufReader::lines` may individually fail (e.g. invalid UTF-8), which
the loop skips with `continue`. -/
def load_history_from_open
    (openResult : Except IOErrKind (List (Except IOErrKind (List Char)))) :
    Hist :=
  match openResult with
  | .error _ => []
  | .ok lineResults =>
    lineResults.foldl
      (fun h lr =>
        match lr with
        | .error _ => h
        | .ok line => loadStep h line)
      []

/-! ### Stable sorting (Rust's `slice::sort_by` is a stable sort; it is
modelled by a stable insertion sort over a boolean "less or equal"
relation `le a b = (cmp a b ≠ Greater)`). -/

/-- Insert `x` after every element `y` of the (sorted) list with
`le y x`; ties therefore keep the already-present element first. -/
def insortBy (le : α → α → Bool) (x : α) : List α → List α
  | [] => [x]
  | y :: ys => if le y x then y :: insortBy le x ys else x :: y :: ys

/-- Stable sort: fold the list left to right, inserting each element
behind its ties.  Same output as any stable sort with the same total
preorder, in particular Rust's `sort_by`. -/
def stableSortBy (le : α → α → Bool) (l : List α) : List α :=
  l.foldl (fun acc x => insortBy le x acc) []

/-- Index-refined comparison: break ties of `le` by the decoration
index.  Sorting index-decorated elements by `leIdx le` is the
specification of a *stable* sort by `le`. -/
def leIdx (le : α → α → Bool) (x y : Nat × α) : Bool :=
  if le x.2 y.2 && le y.2 x.2 then decide (x.1 ≤ y.1) else le x.2 y.2

/-- Descending-timestamp comparison used by the first sort in
`trim_history` (`entries.sort_by(|a, b| b.0.cmp(&a.0))`). -/
def descLe (a b : Event) : Bool := decide (b.1 ≤ a.1)

/-- Ascending-timestamp comparison used by the second sort in
`trim_history` (`entries.sort_by(|a, b| a.0.cmp(&b.0))`). -/
def ascLe (a b : Event) : Bool := decide (a.1 ≤ b.1)

/-! ### `trim_history` -/

/-- One rendered ledger line: `writeln!(file, "{}\t{}", ts, name)`. -/
def renderLine (ts : Nat) (name : List Char) : List Char :=
  natChars ts ++ '\t' :: name ++ ['\n']

/-- The content written for a vector of events (the write loop of
`trim_history`). -/
def renderEvents (evts : List Event) : List Char :=
  (evts.map (fun e => renderLine e.1 e.2)).flatten

/-- The event selection of `trim_history` past the length check:
stable-sort descending by timestamp, keep the first `maxLines`,
stable-sort those ascending by timestamp. -/
def keptEvents (maxLines : Nat) (entries : List Event) : List Event :=
  stableSortBy ascLe (List.take maxLines (stableSortBy descLe entries))

/-- `trim_history`'s effect on the file content (the pure part of the
successful path: read, parse, select, rewrite via temp file + rename;
on the early return the content is untouched). -/
def trim_history (maxLines : Nat) (content : List Char) : List Char :=
  let entries := parsedEvents content
  if entries.length ≤ maxLines then content
  else renderEvents (keptEvents maxLines entries)

/-- The claim-side description of the kept events, stated over
index-decorated events with a *strict* priority order, so that it does
not depend on any sorting algorithm: order all events by (timestamp
descending, file position ascending), keep the first `maxLines`, and
list them by (timestamp ascending, file position ascending). -/
def specKept (maxLines : Nat) (entries : List Event) : List Event :=
  (stableSortBy (leIdx ascLe)
      (List.take maxLines (stableSortBy (leIdx descLe) entries.enum))).map
    (fun p => p.2)

/-- `MAX_HISTORY_LINES` from src/history.rs. -/
def MAX_HISTORY_LINES : Nat := 200

/-! ### `record_launch` -/

/-- The pure content transformation of a successful `record_launch`:
append the tab-separated line and, if the resulting file size exceeds
`MAX_HISTORY_LINES * 100` bytes, run `trim_history MAX_HISTORY_LINES`. -/
def record_pure (ts : Nat) (name : List Char) (content : List Char) :
    List Char :=
  let c := content ++ renderLine ts name
  if MAX_HISTORY_LINES * 100 < utf8Len c then
    trim_history MAX_HISTORY_LINES c
  else c

/-- What sits at the history path before an operation.  A symlink is
judged by the path's own (`fs::symlink_metadata`) file type; the model
never resolves a target, mirroring that the check inspects the link
itself.  `special` is a writable non-regular file (a FIFO or a device
node): `ensure_not_symlink` passes it, and the `O_NOFOLLOW` append
open succeeds on it — `O_NOFOLLOW` only guards symlinks — so a write
goes through.  Such a file holds no persistent text (its metadata
length stays below the trim threshold), so no content is carried. -/
inductive PathState where
  | absent
  | file (content : List Char)
  | symlink
  | directory
  | special
deriving DecidableEq, Repr

/-- `ensure_not_symlink`: `NotFound` from `symlink_metadata` is fine,
a symlink file type is `PermissionDenied`, anything else passes. -/
def ensure_not_symlink (st : PathState) : Except IOErrKind Unit :=
  match st with
  | .symlink => .error .permissionDenied
  | _ => .ok ()

/-- `record_launch` over the path state: create the parent directory
(modelled as always succeeding, it does not touch the path itself),
`ensure_not_symlink`, open for append (`O_NOFOLLOW`, creating the file
when absent; opening a directory for append fails; opening a FIFO or
device node for append succeeds, since `O_NOFOLLOW` only rejects
symlinks), write the line, then the size-triggered trim.  On a
`special` file the write succeeds but no text persists and the trim
threshold is never reached, so the state is unchanged.  Returns the
new state and the result of the inner closure. -/
def record_launch_fs (ts : Nat) (name : List Char) (st : PathState) :
    PathState × Except IOErrKind Unit :=
  match st with
  | .symlink => (st, .error .permissionDenied)
  | .directory => (st, .error .isADirectory)
  | .absent => (.file (record_pure ts name []), .ok ())
  | .file c => (.file (record_pure ts name c), .ok ())
  | .special => (st, .ok ())

/-- `trim_history` over the path state: `ensure_not_symlink` first,
then `fs::read_to_string` (fails on a missing path or a directory),
then the pure rewrite.  On a `special` file the read is modelled after
the device-node case: it yields no parsable events, so the early
length check returns without writing and the state is unchanged.  The
returned `Except` is the inner closure's result, which the caller
discards (`let _ = ...`). -/
def trim_history_fs (maxLines : Nat) (st : PathState) :
    PathState × Except IOErrKind Unit :=
  match st with
  | .symlink => (st, .error .permissionDenied)
  | .directory => (st, .error .isADirectory)
  | .absent => (st, .error .notFound)
  | .file c => (.file (trim_history maxLines c), .ok ())
  | .special => (st, .ok ())

/-! ### Aggregation helpers used to state the claims -/

/-- Combine an optional running maximum with one more value. -/
def omax : Option Nat → Nat → Option Nat
  | none, t => some t
  | some v, t => some (max v t)

/-- Maximum of a list of timestamps (`none` when empty). -/
def maxOf (l : List Nat) : Option Nat :=
  l.foldl omax none

/-- The timestamps of the events carrying a given name. -/
def eventsFor (evts : List Event) (name : List Char) : List Nat :=
  evts.filterMap (fun e => if e.2 = name then some e.1 else none)

/-! ### Application catalog (src/desktop.rs, src/config.rs) -/

/-- `CustomApp` from src/config.rs. -/
structure CustomApp where
  name : List Char
  exec : List Char
  icon : Option (List Char)
  keywords : List (List Char)
deriving DecidableEq, Repr

/-- The `[apps]` configuration consumed by `discover_apps`
(`AppsConfig`; `extra_dirs` only feeds the directory iteration, which
is part of the descriptor input here). -/
structure AppsConfig where
  exclude : List (List Char)
  favorites : List (List Char)
  custom : List CustomApp
deriving DecidableEq, Repr

/-- `LaunchCommand` from src/desktop.rs. -/
inductive LaunchCommand where
  | direct (args : List (List Char))
  | shell (cmd : List Char)
deriving DecidableEq, Repr

/-- `App` from src/desktop.rs. -/
structure App where
  name : List Char
  exec : List Char
  icon : Option (List Char)
  description : Option (List Char)
  keywords : List (List Char)
  terminal : Bool
  launch : LaunchCommand
deriving DecidableEq, Repr

/-- The fields `discover_apps` reads off one parsed desktop-entry
descriptor.  Descriptor file parsing and `parse_exec` (the field-code
aware tokenizer) live in the external `freedesktop_desktop_entry`
crate, so a descriptor arrives here already parsed; `execArgs` is
`none` when `parse_exec` returned an error. -/
structure DesktopEntryData where
  noDisplay : Bool
  hidden : Bool
  name : Option (List Char)
  execArgs : Option (List (List Char))
  icon : Option (List Char)
  comment : Option (List Char)
  keywords : Option (List (List Char))
  terminal : Bool
deriving DecidableEq, Repr

/-- `App::from_custom`. -/
def from_custom (c : CustomApp) : App :=
  { name := c.name
    exec := c.exec
    icon := c.icon
    description := none
    keywords := c.keywords
    terminal := false
    launch := .shell c.exec }

/-- Rust `Vec::join(" ")` on the token vector. -/
def joinSpace : List (List Char) → List Char
  | [] => []
  | [x] => x
  | x :: y :: rest => x ++ ' ' :: joinSpace (y :: rest)

/-- The loop body of `discover_apps` for one discovered descriptor:
skip no-display/hidden entries, entries without a name, entries whose
exec fails to parse or parses to zero tokens, and entries whose name is
excluded; otherwise build the `App`. -/
def normalize_entry (exclude : List (List Char)) (e : DesktopEntryData) :
    Option App :=
  if e.noDisplay || e.hidden then none
  else
    match e.name with
    | none => none
    | some name =>
      match e.execArgs with
      | none => none
      | some args =>
        if args = [] then none
        else if name ∈ exclude then none
        else
          some
            { name := name
              exec := joinSpace args
              icon := e.icon
              description := e.comment
              keywords := e.keywords.getD []
              terminal := e.terminal
              launch := .direct args }

/-- Lowercasing as used by the final sort's `to_lowercase()`
(modelled on its ASCII behaviour; the claims' names are ASCII). -/
def lowerChar (c : Char) : Char :=
  if 'A' ≤ c ∧ c ≤ 'Z' then Char.ofNat (c.toNat + 32) else c

/-- Lowercased display name. -/
def lowerName (s : List Char) : List Char :=
  s.map lowerChar

/-- Lexicographic `≤` on strings by code point, i.e. Rust's `String`
ordering (byte-wise UTF-8 order equals code-point order). -/
def charsLe : List Char → List Char → Bool
  | [], _ => true
  | _ :: _, [] => false
  | a :: as, b :: bs =>
    if a = b then charsLe as bs else decide (a.toNat < b.toNat)

/-- The final sort's comparator as a boolean `le` (`cmp a b ≠ Greater`):
a favorite precedes a non-favorite, otherwise compare the lowercased
names. -/
def appLe (favorites : List (List Char)) (a b : App) : Bool :=
  match decide (a.name ∈ favorites), decide (b.name ∈ favorites) with
  | true, false => true
  | false, true => false
  | _, _ => charsLe (lowerName a.name) (lowerName b.name)

/-- The catalog list before the final sort: normalized discovered
descriptors in discovery order, then all custom apps. -/
def preApps (entries : List DesktopEntryData) (cfg : AppsConfig) :
    List App :=
  entries.filterMap (normalize_entry cfg.exclude) ++
    cfg.custom.map from_custom

/-- `discover_apps`: normalize and filter the discovered descriptors,
append the custom apps, and stable-sort with the favorites-first,
case-insensitive-name comparator. -/
def discover_apps (entries : List DesktopEntryData) (cfg : AppsConfig) :
    List App :=
  stableSortBy (appLe cfg.favorites) (preApps entries cfg)

/-! ### Launch dispatch (src/desktop.rs) -/

/-- The observable outcome of a spawn helper: either an error before
any process creation, or a process-creation attempt with the given
program and argument vector. -/
inductive SpawnOutcome where
  | fail (kind : IOErrKind)
  | proc (program : List Char) (args : List (List Char))
deriving DecidableEq, Repr

/-- `spawn_direct`: an empty argv fails with `InvalidInput` before any
`Command` is built; otherwise the terminal wrapper (if the app runs in
a terminal) or the first token is the program. -/
def spawn_direct (args : List (List Char)) (terminal : Option (List Char)) :
    SpawnOutcome :=
  match args with
  | [] => .fail .invalidInput
  | a :: rest =>
    match terminal with
    | some t => .proc t (['-', 'e'] :: a :: rest)
    | none => .proc a rest

/-! ### Display-string field-code cleanup -/

/-- The thirteen desktop-entry field codes. -/
def fieldCodeChars : List Char :=
  ['f', 'F', 'u', 'U', 'd', 'D', 'n', 'N', 'i', 'c', 'k', 'v', 'm']

/-- Modelled from the spec: the field-code cleanup that produces the
`App`'s display `exec` string.  In src/ the display string is produced
inside the external `freedesktop_desktop_entry` crate (via
`entry.parse_exec()` and `join(" ")`), so the cleanup routine itself is
not part of the repository's sources; this definition follows the
spec's words: each `%x` with `x` one of the thirteen field codes is
stripped, `%%` collapses to one `%`, any other `%x` is preserved
verbatim, and a lone trailing `%` is dropped. -/
def clean_exec : List Char → List Char
  | [] => []
  | c :: rest =>
    if c = '%' then
      match rest with
      | [] => []
      | c2 :: rest2 =>
        if c2 = '%' then '%' :: clean_exec rest2
        else if c2 ∈ fieldCodeChars then clean_exec rest2
        else '%' :: c2 :: clean_exec rest2
    else c :: clean_exec rest

/-! ### Concrete inputs used by examples, witnesses and counterexamples -/

/-- The spec's `load()` example input. -/
def exLoadContent : List Char :=
  "1000\tfirefox\n2000\tterminal\n3000\tfirefox\n".data

/-- The spec's malformed-lines example input. -/
def exMalformed : List Char :=
  "not_a_number\tfirefox\n\nbadline\n1500\tvalid_app\n".data

/-- A small, well-formed three-event ledger. -/
def exThreeEvents : List Char :=
  "100\talpha\n200\tbeta\n300\tgamma\n".data

/-- The claim's field-code example, raw. -/
def exRawWindow : List Char :=
  "code %F --new-window".data

/-- The claim's field-code example, cleaned (double space preserved). -/
def exCleanWindow : List Char :=
  "code  --new-window".data

/-- The claim's non-field-code example (`%x` is not a field code). -/
def exPercentX : List Char :=
  "app --ratio=50%x".data

/-- An excluded name used by the exclusion counterexample. -/
def exXName : List Char := "X".data

/-- A custom app whose display name is `X`. -/
def exCustomX : CustomApp :=
  { name := exXName, exec := "run-x".data, icon := none, keywords := [] }

/-- Configuration that excludes `X` (and even marks it favorite) while
also configuring a custom app named `X`. -/
def exCfgX : AppsConfig :=
  { exclude := [exXName], favorites := [exXName], custom := [exCustomX] }

/-- A discovered descriptor with the given name and a one-token
command. -/
def exEntry (s : List Char) : DesktopEntryData :=
  { noDisplay := false, hidden := false, name := some s,
    execArgs := some [s], icon := none, comment := none,
    keywords := none, terminal := false }

/-- A descriptor whose command parses to zero tokens. -/
def exEntryEmptyExec : DesktopEntryData :=
  { noDisplay := false, hidden := false, name := some ("empty".data),
    execArgs := some [], icon := none, comment := none,
    keywords := none, terminal := false }

/-- The ordering example's descriptor list. -/
def exOrderEntries : List DesktopEntryData :=
  [exEntry ("Zed".data), exEntry ("Alacritty".data),
   exEntry ("Firefox".data), exEntry ("ark".data)]

/-- The ordering example's configuration: `Zed` and `Alacritty` are
favorites. -/
def exCfgOrder : AppsConfig :=
  { exclude := [], favorites := ["Zed".data, "Alacritty".data],
    custom := [] }

/-- A custom app used by witnesses. -/
def exCustomScript : CustomApp :=
  { name := "My Script".data, exec := "echo hello".data, icon := none,
    keywords := [] }

/-- A name ending in a carriage return: it contains no tab and no
newline byte. -/
def exCRName : List Char := "a\r".data

/-- Names appearing in the load example. -/
def exFirefox : List Char := "firefox".data

/-- Names appearing in the load example. -/
def exTerminalName : List Char := "terminal".data

/-- The only valid app name of the malformed example. -/
def exValidApp : List Char := "valid_app".data

/-- Name used by the launch-strategy witness. -/
def exZedName : List Char := "Zed".data

/-- The app the normalizer produces for `exEntry exZedName` with an
empty exclude set. -/
def exZedApp : App :=
  { name := exZedName, exec := exZedName, icon := none,
    description := none, keywords := [], terminal := false,
    launch := .direct [exZedName] }

/-- The expected output order of the ordering example. -/
def exOrderNames : List (List Char) :=
  ["Alacritty".data, "Zed".data, "ark".data, "Firefox".data]

/-- Prior ledger content for the record/load round-trip witness. -/
def exPrior : List Char := "100\tfoo\n".data

/-- Name used by the record/load round-trip witness. -/
def exFoo : List Char := "foo".data

/-- A percent-free command line for the cleanup witness. -/
def exPlain : List Char := "ls -la".data

/-! ## Lemmas: line splitting and parsing -/

theorem splitOnce_eq_some {sep : Char} :
    ∀ {l a b : List Char}, splitOnce sep l = some (a, b) →
      l = a ++ sep :: b ∧ sep ∉ a := by
  intro l
  induction l with
  | nil => intro a b h; simp [splitOnce] at h
  | cons x xs ih =>
    intro a b h
    by_cases hx : x = sep
    · subst hx
      rw [splitOnce, if_pos rfl] at h
      cases h
      simp
    · rw [splitOnce, if_neg hx] at h
      rcases Option.map_eq_some'.mp h with ⟨p, hp, hpe⟩
      cases hpe
      refine ⟨?_, ?_⟩
      · simp [(ih hp).1]
      · intro hc
        rcases List.mem_cons.mp hc with h1 | h2
        · exact hx h1.symm
        · exact (ih hp).2 h2

theorem splitOnce_append (sep : Char) :
    ∀ (a b : List Char), sep ∉ a →
      splitOnce sep (a ++ sep :: b) = some (a, b) := by
  intro a
  induction a with
  | nil => intro b _; simp [splitOnce]
  | cons x xs ih =>
    intro b hmem
    have hx : x ≠ sep := by
      intro h; exact hmem (by simp [h])
    have hxs : sep ∉ xs := fun h => hmem (List.mem_cons_of_mem _ h)
    simp [splitOnce, hx, ih b hxs]

theorem natCharsAux_fuel :
    ∀ (f1 f2 n : Nat), n < f1 → n < f2 →
      natCharsAux f1 n = natCharsAux f2 n := by
  intro f1
  induction f1 with
  | zero => intro f2 n h1 _; omega
  | succ f ih =>
    intro f2 n h1 h2
    cases f2 with
    | zero => omega
    | succ g =>
      simp only [natCharsAux]
      by_cases hn : n < 10
      · rw [if_pos hn, if_pos hn]
      · rw [if_neg hn, if_neg hn,
          ih g (n / 10) (by omega) (by omega)]

theorem natChars_lt {n : Nat} (h : n < 10) :
    natChars n = [Char.ofNat (('0').toNat + n)] := by
  unfold natChars
  simp only [natCharsAux]
  rw [if_pos h]

theorem natChars_ge {n : Nat} (h : ¬ n < 10) :
    natChars n = natChars (n / 10) ++ [Char.ofNat (('0').toNat + n % 10)] := by
  unfold natChars
  have h1 : natCharsAux (n + 1) n
      = natCharsAux n (n / 10) ++ [Char.ofNat (('0').toNat + n % 10)] := by
    simp only [natCharsAux]
    rw [if_neg h]
  rw [h1, natCharsAux_fuel n (n / 10 + 1) (n / 10) (by omega) (by omega)]

theorem digitChar_isDigit :
    ∀ d, d < 10 → (Char.ofNat (('0').toNat + d)).isDigit = true := by decide

theorem digitChar_toNat :
    ∀ d, d < 10 → (Char.ofNat (('0').toNat + d)).toNat = ('0').toNat + d := by
  decide

theorem digitChar_ne :
    ∀ d, d < 10 → Char.ofNat (('0').toNat + d) ≠ '\t' ∧
      Char.ofNat (('0').toNat + d) ≠ '+' ∧
      Char.ofNat (('0').toNat + d) ≠ '\n' ∧
      Char.ofNat (('0').toNat + d) ≠ '\r' := by decide

theorem natChars_mem {n : Nat} :
    ∀ c ∈ natChars n, ∃ d, d < 10 ∧ c = Char.ofNat (('0').toNat + d) := by
  induction n using Nat.strong_induction_on with
  | _ n ih =>
    intro c hc
    by_cases h : n < 10
    · rw [natChars_lt h] at hc
      simp at hc
      exact ⟨n, h, hc⟩
    · rw [natChars_ge h] at hc
      rcases List.mem_append.mp hc with h1 | h2
      · exact ih (n / 10) (Nat.div_lt_self (by omega) (by omega)) c h1
      · simp at h2
        exact ⟨n % 10, Nat.mod_lt _ (by omega), h2⟩

theorem natChars_ne_nil {n : Nat} : natChars n ≠ [] := by
  by_cases h : n < 10
  · rw [natChars_lt h]; simp
  · rw [natChars_ge h]; simp

theorem tab_not_mem_natChars {n : Nat} : '\t' ∉ natChars n := by
  intro h
  obtain ⟨d, hd, hc⟩ := natChars_mem _ h
  exact (digitChar_ne d hd).1 hc.symm

theorem newline_not_mem_natChars {n : Nat} : '\n' ∉ natChars n := by
  intro h
  obtain ⟨d, hd, hc⟩ := natChars_mem _ h
  exact (digitChar_ne d hd).2.2.1 hc.symm

theorem natChars_foldl (f : Nat → Char → Nat)
    (hf : ∀ a d, d < 10 → f a (Char.ofNat (('0').toNat + d)) = a * 10 + d) :
    ∀ n, (natChars n).foldl f 0 = n := by
  intro n
  induction n using Nat.strong_induction_on with
  | _ n ih =>
    by_cases h : n < 10
    · rw [natChars_lt h]
      simp only [List.foldl_cons, List.foldl_nil]
      rw [hf 0 n h]
      omega
    · rw [natChars_ge h, List.foldl_append]
      rw [ih (n / 10) (Nat.div_lt_self (by omega) (by omega))]
      simp only [List.foldl_cons, List.foldl_nil]
      rw [hf (n / 10) (n % 10) (Nat.mod_lt _ (by omega))]
      omega

theorem parseU64_natChars {n : Nat} (h : n < 2 ^ 64) :
    parseU64 (natChars n) = some n := by
  have hne : natChars n ≠ [] := natChars_ne_nil
  have hhead : (natChars n).head? ≠ some '+' := by
    intro hh
    cases hcs : natChars n with
    | nil => exact hne hcs
    | cons c tl =>
      rw [hcs] at hh
      simp at hh
      have := natChars_mem (n := n) c (by rw [hcs]; simp)
      obtain ⟨d, hd, hc⟩ := this
      exact (digitChar_ne d hd).2.1 (hc.symm.trans hh)
  have hdig : (natChars n).all Char.isDigit = true := by
    rw [List.all_eq_true]
    intro c hc
    obtain ⟨d, hd, hcd⟩ := natChars_mem _ hc
    rw [hcd]
    exact digitChar_isDigit d hd
  have hval : (natChars n).foldl
      (fun a c => a * 10 + (c.toNat - ('0').toNat)) 0 = n := by
    apply natChars_foldl
    intro a d hd
    rw [digitChar_toNat d hd]
    omega
  unfold parseU64
  simp only [if_neg hhead, if_neg hne, hdig, if_pos rfl, hval, if_pos h]
  simp [hval, h]

theorem parseU64_bound {cs : List Char} {v : Nat}
    (h : parseU64 cs = some v) : v < 2 ^ 64 := by
  unfold parseU64 at h
  dsimp only at h
  repeat' split at h
  all_goals
    first
      | (cases h; assumption)
      | exact absurd h (by simp)

/-! ## Lemmas: `strLines` -/

theorem stripCR_subset {l : List Char} : stripCR l ⊆ l := by
  unfold stripCR
  split
  · exact (List.dropLast_sublist l).subset
  · exact fun _ h => h

theorem stripCR_of_getLast {l : List Char} (h : l.getLast? ≠ some '\r') :
    stripCR l = l := by
  unfold stripCR
  rw [if_neg h]

theorem strLinesAux_no_newline :
    ∀ (cs cur : List Char), (∀ c ∈ cur, c ≠ '\n') →
      ∀ line ∈ strLinesAux cur cs, '\n' ∉ line := by
  intro cs
  induction cs with
  | nil =>
    intro cur hcur line hline
    unfold strLinesAux at hline
    split at hline
    · simp at hline
    · simp at hline
      subst hline
      intro hmem
      exact hcur '\n' (List.mem_reverse.mp hmem) rfl
  | cons c cs ih =>
    intro cur hcur line hline
    unfold strLinesAux at hline
    split at hline
    · rcases List.mem_cons.mp hline with h1 | h2
      · subst h1
        intro hmem
        exact hcur '\n' (List.mem_reverse.mp (stripCR_subset hmem)) rfl
      · exact ih [] (by simp) line h2
    · refine ih (c :: cur) ?_ line hline
      intro x hx
      rcases List.mem_cons.mp hx with h1 | h2
      · subst h1
        intro heq
        exact absurd heq (by assumption)
      · exact hcur x h2

theorem strLines_no_newline {cs : List Char} :
    ∀ line ∈ strLines cs, '\n' ∉ line :=
  strLinesAux_no_newline cs [] (by simp)

theorem strLinesAux_nil (cur : List Char) :
    strLinesAux cur [] = if cur = [] then [] else [cur.reverse] := rfl

theorem strLinesAux_cons (cur : List Char) (c : Char) (cs : List Char) :
    strLinesAux cur (c :: cs) =
      if c = '\n' then stripCR cur.reverse :: strLinesAux [] cs
      else strLinesAux (c :: cur) cs := rfl

theorem strLinesAux_append_complete :
    ∀ (cs : List Char), endsNewline cs = true → cs ≠ [] →
      ∀ (cur r : List Char),
        strLinesAux cur (cs ++ r) = strLinesAux cur cs ++ strLinesAux [] r := by
  intro cs
  induction cs with
  | nil => intro _ h; exact absurd rfl h
  | cons c cs ih =>
    intro hnl _ cur r
    cases cs with
    | nil =>
      have hc : c = '\n' := by
        simpa [endsNewline] using hnl
      subst hc
      simp [strLinesAux_cons, strLinesAux_nil]
    | cons c2 rest =>
      have hnl2 : endsNewline (c2 :: rest) = true := by
        simpa [endsNewline] using hnl
      by_cases hc : c = '\n'
      · subst hc
        simp only [List.cons_append]
        rw [strLinesAux_cons cur '\n' (c2 :: (rest ++ r)),
          strLinesAux_cons cur '\n' (c2 :: rest), if_pos rfl, if_pos rfl]
        have ih2 := ih hnl2 (by simp) [] r
        rw [List.cons_append] at ih2
        rw [ih2]
        simp
      · simp only [List.cons_append]
        rw [strLinesAux_cons cur c (c2 :: (rest ++ r)),
          strLinesAux_cons cur c (c2 :: rest), if_neg hc, if_neg hc]
        exact ih hnl2 (by simp) (c :: cur) r

theorem strLines_append {cs r : List Char} (h : endsNewline cs = true) :
    strLines (cs ++ r) = strLines cs ++ strLines r := by
  cases hcs : cs with
  | nil => simp [strLines, strLinesAux]
  | cons c tl =>
    unfold strLines
    rw [← hcs]
    exact strLinesAux_append_complete cs (hcs ▸ h) (by rw [hcs]; simp) [] r

theorem strLinesAux_single_line :
    ∀ (line : List Char), '\n' ∉ line → ∀ cur,
      strLinesAux cur (line ++ ['\n']) = [stripCR (cur.reverse ++ line)] := by
  intro line
  induction line with
  | nil =>
    intro _ cur
    simp [strLinesAux]
  | cons c rest ih =>
    intro hmem cur
    have hc : c ≠ '\n' := fun h => hmem (by simp [h])
    have hrest : '\n' ∉ rest := fun h => hmem (List.mem_cons_of_mem _ h)
    simp only [List.cons_append]
    unfold strLinesAux
    rw [if_neg hc, ih hrest (c :: cur)]
    simp

theorem strLines_single_line {line : List Char} (h : '\n' ∉ line) :
    strLines (line ++ ['\n']) = [stripCR line] := by
  unfold strLines
  rw [strLinesAux_single_line line h []]
  simp

theorem endsNewline_snoc_newline :
    ∀ (l : List Char), endsNewline (l ++ ['\n']) = true := by
  intro l
  induction l with
  | nil => simp [endsNewline]
  | cons c tl ih =>
    cases tl with
    | nil => simp [endsNewline]
    | cons c2 rest =>
      simp only [List.cons_append] at ih ⊢
      simpa [endsNewline] using ih

/-! ## Lemmas: rendered lines parse back -/

theorem parseLine_render {ts : Nat} (name : List Char) (hts : ts < 2 ^ 64) :
    parseLine (natChars ts ++ '\t' :: name) = some (ts, name) := by
  unfold parseLine
  rw [splitOnce_append '\t' (natChars ts) name tab_not_mem_natChars]
  simp [parseU64_natChars hts]

theorem renderLine_eq (ts : Nat) (name : List Char) :
    renderLine ts name = (natChars ts ++ '\t' :: name) ++ ['\n'] := by
  unfold renderLine
  simp

theorem stripCR_body (l name : List Char) :
    stripCR (l ++ '\t' :: name) = l ++ '\t' :: stripCR name := by
  rcases name.eq_nil_or_concat with h | ⟨ys, y, hy⟩
  · subst h
    unfold stripCR
    rw [List.getLast?_concat]
    simp
  · subst hy
    simp only [List.concat_eq_append]
    have hsh : l ++ '\t' :: (ys ++ [y]) = (l ++ '\t' :: ys) ++ [y] := by simp
    unfold stripCR
    rw [hsh, List.getLast?_concat, List.getLast?_concat]
    by_cases hyr : y = '\r'
    · subst hyr
      simp [List.dropLast_concat]
      rw [show '\t' :: (ys ++ ['\r']) = ('\t' :: ys) ++ ['\r'] from rfl]
      exact List.dropLast_concat
    · have h1 : ¬ (some y = some '\r') := by simpa using hyr
      rw [if_neg h1, if_neg h1, hsh]

theorem parsedEvents_renderLine {ts : Nat} {name : List Char}
    (hts : ts < 2 ^ 64) (hnl : '\n' ∉ name) :
    parsedEvents (renderLine ts name) = [(ts, stripCR name)] := by
  unfold parsedEvents
  rw [renderLine_eq ts name]
  have hbody : '\n' ∉ natChars ts ++ '\t' :: name := by
    intro hmem
    rcases List.mem_append.mp hmem with h1 | h2
    · exact newline_not_mem_natChars h1
    · rcases List.mem_cons.mp h2 with h3 | h4
      · exact absurd h3.symm (by decide)
      · exact hnl h4
  rw [strLines_single_line hbody]
  simp only [List.filterMap_cons, List.filterMap_nil]
  rw [stripCR_body (natChars ts) name,
    parseLine_render (stripCR name) hts]

theorem parsedEvents_append {c r : List Char} (h : endsNewline c = true) :
    parsedEvents (c ++ r) = parsedEvents c ++ parsedEvents r := by
  unfold parsedEvents
  rw [strLines_append h, List.filterMap_append]

theorem parsedEvents_record {ts : Nat} {name c : List Char}
    (hts : ts < 2 ^ 64) (hnl : '\n' ∉ name)
    (hcr : name.getLast? ≠ some '\r') (hwf : endsNewline c = true) :
    parsedEvents (c ++ renderLine ts name) = parsedEvents c ++ [(ts, name)] := by
  rw [parsedEvents_append hwf, parsedEvents_renderLine hts hnl,
    stripCR_of_getLast hcr]

theorem parsedEvents_renderEvents {evts : List Event}
    (h : ∀ e ∈ evts, e.1 < 2 ^ 64 ∧ '\n' ∉ e.2) :
    parsedEvents (renderEvents evts) =
      evts.map (fun e => (e.1, stripCR e.2)) := by
  induction evts with
  | nil => rfl
  | cons e rest ih =>
    have hre : renderEvents (e :: rest) =
        renderLine e.1 e.2 ++ renderEvents rest := by
      unfold renderEvents
      simp
    rw [hre, parsedEvents_append, parsedEvents_renderLine (h e (by simp)).1
        (h e (by simp)).2, ih (fun x hx => h x (by simp [hx]))]
    · rfl
    · rw [renderLine_eq]
      exact endsNewline_snoc_newline _

theorem parsedEvents_mem {content : List Char} {e : Event}
    (he : e ∈ parsedEvents content) : e.1 < 2 ^ 64 ∧ '\n' ∉ e.2 := by
  unfold parsedEvents at he
  rcases List.mem_filterMap.mp he with ⟨line, hline, hparse⟩
  unfold parseLine at hparse
  cases hsp : splitOnce '\t' line with
  | none => rw [hsp] at hparse; simp at hparse
  | some p =>
    rw [hsp] at hparse
    rcases Option.map_eq_some'.mp hparse with ⟨v, hv, hve⟩
    subst hve
    refine ⟨parseU64_bound hv, ?_⟩
    intro hmem
    have hl := (splitOnce_eq_some hsp).1
    exact strLines_no_newline line hline
      (by rw [hl]; simp [hmem])

/-! ## Lemmas: `load_history` computes the per-name maximum -/

theorem histLookup_insertMax (h : Hist) (n name : List Char) (ts : Nat) :
    histLookup (insertMax h n ts) name =
      if n = name then omax (histLookup h name) ts
      else histLookup h name := by
  induction h with
  | nil =>
    by_cases hn : n = name
    · subst hn
      simp [insertMax, histLookup, omax]
    · simp [insertMax, histLookup, hn]
  | cons kv rest ih =>
    obtain ⟨k, v⟩ := kv
    by_cases hk : k = n
    · subst hk
      by_cases hn : k = name
      · subst hn
        simp [insertMax, histLookup, omax, Nat.max_comm]
      · simp [insertMax, histLookup, hn]
    · by_cases hkname : k = name
      · subst hkname
        have hn : n ≠ k := fun hh => hk hh.symm
        simp [insertMax, histLookup, hk, hn]
      · simp [insertMax, histLookup, hk, hkname, ih]

theorem eventsFor_cons (e : Event) (evts : List Event) (name : List Char) :
    eventsFor (e :: evts) name =
      if e.2 = name then e.1 :: eventsFor evts name
      else eventsFor evts name := by
  unfold eventsFor
  by_cases h : e.2 = name
  · simp [List.filterMap_cons, h]
  · simp [List.filterMap_cons, h]

theorem load_foldl (lines : List (List Char)) :
    ∀ (h : Hist) (name : List Char),
      histLookup (lines.foldl loadStep h) name =
        (eventsFor (lines.filterMap parseLine) name).foldl omax
          (histLookup h name) := by
  induction lines with
  | nil => intro h name; rfl
  | cons line rest ih =>
    intro h name
    rw [List.foldl_cons, List.filterMap_cons]
    cases hp : parseLine line with
    | none =>
      have hstep : loadStep h line = h := by
        unfold loadStep
        rw [hp]
      rw [ih, hstep]
    | some e =>
      obtain ⟨ts, nm⟩ := e
      have hstep : loadStep h line = insertMax h nm ts := by
        unfold loadStep
        rw [hp]
      rw [ih, hstep, histLookup_insertMax, eventsFor_cons]
      by_cases hnm : nm = name
      · simp [hnm]
      · have : (ts, nm).2 ≠ name := hnm
        simp [hnm, this]

theorem load_history_lookup (content : List Char) (name : List Char) :
    histLookup (load_history content) name =
      maxOf (eventsFor (parsedEvents content) name) := by
  unfold load_history parsedEvents maxOf
  rw [load_foldl]
  rfl

theorem foldl_omax_eq (l : List Nat) :
    ∀ (acc : Option Nat) (t : Nat), (t ∈ l ∨ acc = some t) →
      (∀ u ∈ l, u ≤ t) → (∀ v, acc = some v → v ≤ t) →
      l.foldl omax acc = some t := by
  induction l with
  | nil =>
    intro acc t hmem _ _
    rcases hmem with h | h
    · simp at h
    · simpa using h
  | cons u rest ih =>
    intro acc t hmem hub hacc
    rw [List.foldl_cons]
    have hut : u ≤ t := hub u (by simp)
    apply ih (omax acc u) t
    · rcases hmem with h | h
      · rcases List.mem_cons.mp h with h1 | h2
        · right
          cases hac : acc with
          | none =>
            simp [omax]
            omega
          | some w =>
            have hw : w ≤ t := hacc w hac
            simp [omax]
            omega
        · left; exact h2
      · right
        rw [h]
        simp [omax]
        omega
    · intro x hx
      exact hub x (by simp [hx])
    · intro v hv
      cases hac : acc with
      | none =>
        rw [hac] at hv
        simp [omax] at hv
        omega
      | some w =>
        rw [hac] at hv
        simp [omax] at hv
        have hw := hacc w hac
        omega

theorem maxOf_eq_some (l : List Nat) (t : Nat) (hmem : t ∈ l)
    (hub : ∀ u ∈ l, u ≤ t) : maxOf l = some t :=
  foldl_omax_eq l none t (Or.inl hmem) hub (by simp)

theorem eventsFor_append (a b : List Event) (name : List Char) :
    eventsFor (a ++ b) name = eventsFor a name ++ eventsFor b name := by
  unfold eventsFor
  rw [List.filterMap_append]

theorem mem_eventsFor {evts : List Event} {name : List Char} {u : Nat} :
    u ∈ eventsFor evts name ↔ ∃ e ∈ evts, e.2 = name ∧ e.1 = u := by
  unfold eventsFor
  rw [List.mem_filterMap]
  constructor
  · rintro ⟨e, he, hif⟩
    by_cases h : e.2 = name
    · rw [if_pos h] at hif
      exact ⟨e, he, h, by simpa using hif⟩
    · rw [if_neg h] at hif
      simp at hif
  · rintro ⟨e, he, hn, hu⟩
    exact ⟨e, he, by rw [if_pos hn, hu]⟩

/-! ## Lemmas: the stable sort -/

theorem insortBy_perm (le : α → α → Bool) (x : α) :
    ∀ (l : List α), (insortBy le x l).Perm (x :: l) := by
  intro l
  induction l with
  | nil => rfl
  | cons y ys ih =>
    unfold insortBy
    split
    · exact (ih.cons y).trans (List.Perm.swap x y ys)
    · rfl

theorem foldl_insort_perm (le : α → α → Bool) :
    ∀ (l acc : List α),
      (l.foldl (fun acc x => insortBy le x acc) acc).Perm (acc ++ l) := by
  intro l
  induction l with
  | nil => intro acc; simp
  | cons x xs ih =>
    intro acc
    rw [List.foldl_cons]
    refine (ih (insortBy le x acc)).trans ?_
    refine (List.Perm.append_right xs (insortBy_perm le x acc)).trans ?_
    exact List.perm_middle.symm

theorem stableSortBy_perm (le : α → α → Bool) (l : List α) :
    (stableSortBy le l).Perm l := by
  unfold stableSortBy
  simpa using foldl_insort_perm le l []

theorem insortBy_pairwise {le : α → α → Bool}
    (htrans : ∀ a b c, le a b = true → le b c = true → le a c = true)
    (htot : ∀ a b, le a b = true ∨ le b a = true)
    (x : α) :
    ∀ {l : List α}, l.Pairwise (fun a b => le a b = true) →
      (insortBy le x l).Pairwise (fun a b => le a b = true) := by
  intro l
  induction l with
  | nil =>
    intro _
    simp [insortBy]
  | cons y ys ih =>
    intro hl
    rcases List.pairwise_cons.mp hl with ⟨hy, hys⟩
    by_cases hc : le y x = true
    · rw [insortBy, if_pos hc]
      refine List.pairwise_cons.mpr ⟨?_, ih hys⟩
      intro z hz
      rcases List.mem_cons.mp ((insortBy_perm le x ys).mem_iff.mp hz)
        with h1 | h2
      · subst h1; exact hc
      · exact hy z h2
    · rw [insortBy, if_neg hc]
      have hxy : le x y = true := by
        rcases htot x y with h | h
        · exact h
        · exact absurd h hc
      refine List.pairwise_cons.mpr ⟨?_, hl⟩
      intro z hz
      rcases List.mem_cons.mp hz with h1 | h2
      · subst h1; exact hxy
      · exact htrans x y z hxy (hy z h2)

theorem stableSortBy_pairwise {le : α → α → Bool}
    (htrans : ∀ a b c, le a b = true → le b c = true → le a c = true)
    (htot : ∀ a b, le a b = true ∨ le b a = true)
    (l : List α) :
    (stableSortBy le l).Pairwise (fun a b => le a b = true) := by
  unfold stableSortBy
  have haux : ∀ (l acc : List α),
      acc.Pairwise (fun a b => le a b = true) →
      (l.foldl (fun acc x => insortBy le x acc) acc).Pairwise
        (fun a b => le a b = true) := by
    intro l
    induction l with
    | nil => intro acc hacc; exact hacc
    | cons x xs ih =>
      intro acc hacc
      rw [List.foldl_cons]
      exact ih _ (insortBy_pairwise htrans htot x hacc)
  exact haux l [] (by simp)

theorem insort_map_snd {α : Type} {le : α → α → Bool} (x : Nat × α) :
    ∀ (acc : List (Nat × α)),
      (∀ y ∈ acc, le y.2 x.2 = true → le x.2 y.2 = true → y.1 ≤ x.1) →
      (insortBy (leIdx le) x acc).map Prod.snd
        = insortBy le x.2 (acc.map Prod.snd) := by
  intro acc
  induction acc with
  | nil => intro _; rfl
  | cons y ys ih =>
    intro h
    have hbranch : leIdx le y x = le y.2 x.2 := by
      unfold leIdx
      by_cases ht : le y.2 x.2 = true ∧ le x.2 y.2 = true
      · rw [if_pos (by simp [ht.1, ht.2])]
        have hle := h y (by simp) ht.1 ht.2
        simp [hle, ht.1]
      · rw [if_neg (by
          intro hb
          have hb2 : le y.2 x.2 = true ∧ le x.2 y.2 = true := by
            simpa using hb
          exact ht hb2)]
    simp only [List.map_cons, insortBy]
    rw [hbranch]
    by_cases hc : le y.2 x.2 = true
    · rw [if_pos hc, if_pos hc, List.map_cons,
        ih (fun z hz => h z (by simp [hz]))]
    · rw [if_neg hc, if_neg hc]
      simp

theorem foldl_insort_map_snd {α : Type} {le : α → α → Bool} :
    ∀ (l acc : List (Nat × α)),
      l.Pairwise (fun p q => le p.2 q.2 = true → le q.2 p.2 = true →
        p.1 ≤ q.1) →
      (∀ y ∈ acc, ∀ x ∈ l, le y.2 x.2 = true → le x.2 y.2 = true →
        y.1 ≤ x.1) →
      (l.foldl (fun acc x => insortBy (leIdx le) x acc) acc).map Prod.snd
        = (l.map Prod.snd).foldl (fun acc x => insortBy le x acc)
            (acc.map Prod.snd) := by
  intro l
  induction l with
  | nil => intro acc _ _; rfl
  | cons x xs ih =>
    intro acc hpair hcross
    rw [List.foldl_cons, List.map_cons, List.foldl_cons]
    have hmap := insort_map_snd x acc
      (fun y hy h1 h2 => hcross y hy x (by simp) h1 h2)
    rw [← hmap]
    refine ih (insortBy (leIdx le) x acc)
      (List.pairwise_cons.mp hpair).2 ?_
    intro y hy z hz h1 h2
    rcases List.mem_cons.mp ((insortBy_perm (leIdx le) x acc).mem_iff.mp hy)
      with hy1 | hy2
    · subst hy1
      exact (List.pairwise_cons.mp hpair).1 z hz h1 h2
    · exact hcross y hy2 z (by simp [hz]) h1 h2

theorem stableSortBy_map_snd {α : Type} {le : α → α → Bool}
    (l : List (Nat × α))
    (hpair : l.Pairwise (fun p q => le p.2 q.2 = true → le q.2 p.2 = true →
      p.1 ≤ q.1)) :
    (stableSortBy (leIdx le) l).map Prod.snd
      = stableSortBy le (l.map Prod.snd) := by
  unfold stableSortBy
  exact foldl_insort_map_snd l [] hpair (by simp)

theorem enumFrom_pairwise (l : List α) :
    ∀ n, (List.enumFrom n l).Pairwise (fun p q => p.1 < q.1) := by
  induction l with
  | nil => intro n; simp
  | cons x xs ih =>
    intro n
    rw [List.enumFrom_cons]
    refine List.pairwise_cons.mpr ⟨?_, ih (n + 1)⟩
    intro p hp
    have := (List.mem_enumFrom hp).1
    omega

theorem enum_pairwise_tie (le : α → α → Bool) (l : List α) :
    l.enum.Pairwise (fun p q => le p.2 q.2 = true → le q.2 p.2 = true →
      p.1 ≤ q.1) := by
  have h2 : l.enum.Pairwise (fun p q => p.1 < q.1) := by
    rw [List.enum_eq_enumFrom]
    exact enumFrom_pairwise l 0
  exact h2.imp (fun hlt _ _ => Nat.le_of_lt hlt)

theorem pairwise_tie_of_leIdx {α : Type} {le : α → α → Bool}
    {t : List (Nat × α)}
    (h : t.Pairwise (fun a b => leIdx le a b = true)) :
    t.Pairwise (fun p q => le p.2 q.2 = true → le q.2 p.2 = true →
      p.1 ≤ q.1) := by
  refine h.imp ?_
  intro a b hab h1 h2
  unfold leIdx at hab
  rw [if_pos (by simp [h1, h2])] at hab
  exact of_decide_eq_true hab

/-! ## Lemmas: totality and transitivity of the comparators -/

theorem band_true_iff {a b : Bool} : (a && b) = true ↔ a = true ∧ b = true := by
  simp

theorem char_toNat_inj {a b : Char} (h : a.toNat = b.toNat) : a = b := by
  apply Char.ext
  apply UInt32.eq_of_toBitVec_eq
  apply BitVec.eq_of_toNat_eq
  exact h

theorem charsLe_total :
    ∀ (a b : List Char), charsLe a b = true ∨ charsLe b a = true := by
  intro a
  induction a with
  | nil => intro b; left; rfl
  | cons x xs ih =>
    intro b
    cases b with
    | nil => right; rfl
    | cons y ys =>
      by_cases hxy : x = y
      · subst hxy
        rcases ih ys with h | h
        · left; simp [charsLe, h]
        · right; simp [charsLe, h]
      · have hne : x.toNat ≠ y.toNat := fun hh => hxy (char_toNat_inj hh)
        have hyx : y ≠ x := fun hh => hxy hh.symm
        by_cases hlt : x.toNat < y.toNat
        · left; simp [charsLe, hxy, hlt]
        · right
          simp [charsLe, hyx]
          omega

theorem charsLe_trans :
    ∀ (a b c : List Char), charsLe a b = true → charsLe b c = true →
      charsLe a c = true := by
  intro a
  induction a with
  | nil => intro b c _ _; rfl
  | cons x xs ih =>
    intro b c hab hbc
    cases b with
    | nil => simp [charsLe] at hab
    | cons y ys =>
      cases c with
      | nil => simp [charsLe] at hbc
      | cons z zs =>
        by_cases hxy : x = y
        · subst hxy
          simp only [charsLe, if_pos rfl] at hab
          by_cases hxz : x = z
          · subst hxz
            simp only [charsLe, if_pos rfl] at hbc ⊢
            exact ih ys zs hab hbc
          · simp only [charsLe, if_neg hxz] at hbc ⊢
            exact hbc
        · simp only [charsLe, if_neg hxy] at hab
          have hab2 : x.toNat < y.toNat := of_decide_eq_true hab
          by_cases hyz : y = z
          · subst hyz
            simp only [charsLe, if_neg hxy]
            exact hab
          · simp only [charsLe, if_neg hyz] at hbc
            have hbc2 : y.toNat < z.toNat := of_decide_eq_true hbc
            have hxz : x ≠ z := by
              intro hh
              subst hh
              omega
            simp only [charsLe, if_neg hxz]
            apply decide_eq_true
            omega

theorem appLe_eq (favs : List (List Char)) (a b : App) :
    appLe favs a b =
      if a.name ∈ favs then
        (if b.name ∈ favs then
          charsLe (lowerName a.name) (lowerName b.name) else true)
      else
        (if b.name ∈ favs then false
         else charsLe (lowerName a.name) (lowerName b.name)) := by
  unfold appLe
  by_cases ha : a.name ∈ favs <;> by_cases hb : b.name ∈ favs <;>
    simp [ha, hb]

theorem appLe_total (favs : List (List Char)) :
    ∀ a b : App, appLe favs a b = true ∨ appLe favs b a = true := by
  intro a b
  rw [appLe_eq, appLe_eq]
  by_cases ha : a.name ∈ favs <;> by_cases hb : b.name ∈ favs <;>
    simp [ha, hb]
  · exact charsLe_total _ _
  · exact charsLe_total _ _

theorem appLe_trans (favs : List (List Char)) :
    ∀ a b c : App, appLe favs a b = true → appLe favs b c = true →
      appLe favs a c = true := by
  intro a b c hab hbc
  rw [appLe_eq] at hab hbc
  rw [appLe_eq]
  by_cases ha : a.name ∈ favs <;> by_cases hb : b.name ∈ favs <;>
    by_cases hc : c.name ∈ favs <;>
    simp [ha, hb, hc] at hab hbc ⊢ <;>
    try exact charsLe_trans _ _ _ hab hbc

theorem descLe_total : ∀ a b : Event, descLe a b = true ∨ descLe b a = true := by
  intro a b
  unfold descLe
  rcases Nat.le_total b.1 a.1 with h | h
  · left; exact decide_eq_true h
  · right; exact decide_eq_true h

theorem descLe_trans :
    ∀ a b c : Event, descLe a b = true → descLe b c = true →
      descLe a c = true := by
  intro a b c hab hbc
  unfold descLe at *
  have h1 := of_decide_eq_true hab
  have h2 := of_decide_eq_true hbc
  exact decide_eq_true (Nat.le_trans h2 h1)

theorem ascLe_total : ∀ a b : Event, ascLe a b = true ∨ ascLe b a = true := by
  intro a b
  unfold ascLe
  rcases Nat.le_total a.1 b.1 with h | h
  · left; exact decide_eq_true h
  · right; exact decide_eq_true h

theorem ascLe_trans :
    ∀ a b c : Event, ascLe a b = true → ascLe b c = true →
      ascLe a c = true := by
  intro a b c hab hbc
  unfold ascLe at *
  have h1 := of_decide_eq_true hab
  have h2 := of_decide_eq_true hbc
  exact decide_eq_true (Nat.le_trans h1 h2)

theorem leIdx_total {α : Type} {le : α → α → Bool}
    (htot : ∀ a b, le a b = true ∨ le b a = true) :
    ∀ x y : Nat × α, leIdx le x y = true ∨ leIdx le y x = true := by
  intro x y
  unfold leIdx
  by_cases h1 : le x.2 y.2 = true <;> by_cases h2 : le y.2 x.2 = true
  · simp [h1, h2]
    omega
  · left
    rw [if_neg (fun hb => h2 (band_true_iff.mp hb).2)]
    exact h1
  · right
    rw [if_neg (fun hb => h1 (band_true_iff.mp hb).2)]
    exact h2
  · exfalso
    rcases htot x.2 y.2 with h | h
    · exact h1 h
    · exact h2 h

theorem leIdx_trans {α : Type} {le : α → α → Bool}
    (htrans : ∀ a b c, le a b = true → le b c = true → le a c = true) :
    ∀ x y z : Nat × α, leIdx le x y = true → leIdx le y z = true →
      leIdx le x z = true := by
  intro x y z hxy hyz
  by_cases hxy2 : le x.2 y.2 = true ∧ le y.2 x.2 = true
  · by_cases hyz2 : le y.2 z.2 = true ∧ le z.2 y.2 = true
    · have hxz1 : le x.2 z.2 = true := htrans _ _ _ hxy2.1 hyz2.1
      have hxz2 : le z.2 x.2 = true := htrans z.2 y.2 x.2 hyz2.2 hxy2.2
      unfold leIdx at hxy hyz ⊢
      rw [if_pos (band_true_iff.mpr ⟨hxy2.1, hxy2.2⟩)] at hxy
      rw [if_pos (band_true_iff.mpr ⟨hyz2.1, hyz2.2⟩)] at hyz
      rw [if_pos (band_true_iff.mpr ⟨hxz1, hxz2⟩)]
      have hx1 := of_decide_eq_true hxy
      have hy1 := of_decide_eq_true hyz
      apply decide_eq_true
      omega
    · unfold leIdx at hyz
      rw [if_neg (fun hb => hyz2 (band_true_iff.mp hb))] at hyz
      have hzy : ¬ le z.2 y.2 = true := fun hh => hyz2 ⟨hyz, hh⟩
      have hxz1 : le x.2 z.2 = true := htrans _ _ _ hxy2.1 hyz
      have hzx : ¬ le z.2 x.2 = true :=
        fun hh => hzy (htrans _ _ _ hh hxy2.1)
      unfold leIdx
      rw [if_neg (fun hb => hzx (band_true_iff.mp hb).2)]
      exact hxz1
  · unfold leIdx at hxy
    rw [if_neg (fun hb => hxy2 (band_true_iff.mp hb))] at hxy
    have hyx : ¬ le y.2 x.2 = true := fun hh => hxy2 ⟨hxy, hh⟩
    by_cases hyz2 : le y.2 z.2 = true ∧ le z.2 y.2 = true
    · have hxz1 : le x.2 z.2 = true := htrans _ _ _ hxy hyz2.1
      have hzx : ¬ le z.2 x.2 = true :=
        fun hh => hyx (htrans y.2 z.2 x.2 hyz2.1 hh)
      unfold leIdx
      rw [if_neg (fun hb => hzx (band_true_iff.mp hb).2)]
      exact hxz1
    · unfold leIdx at hyz
      rw [if_neg (fun hb => hyz2 (band_true_iff.mp hb))] at hyz
      have hxz1 : le x.2 z.2 = true := htrans _ _ _ hxy hyz
      have hzy : ¬ le z.2 y.2 = true := fun hh => hyz2 ⟨hyz, hh⟩
      have hzx : ¬ le z.2 x.2 = true := fun hh => hzy (htrans _ _ _ hh hxy)
      unfold leIdx
      rw [if_neg (fun hb => hzx (band_true_iff.mp hb).2)]
      exact hxz1

/-! ## Lemmas: `trim_history` correctness -/

theorem keptEvents_eq_specKept (m : Nat) (entries : List Event) :
    keptEvents m entries = specKept m entries := by
  unfold keptEvents specKept
  have h1 : stableSortBy descLe entries
      = (stableSortBy (leIdx descLe) entries.enum).map Prod.snd := by
    rw [stableSortBy_map_snd entries.enum (enum_pairwise_tie descLe entries),
      List.enum_map_snd]
  have hsorted : (stableSortBy (leIdx descLe) entries.enum).Pairwise
      (fun a b => leIdx descLe a b = true) :=
    stableSortBy_pairwise (leIdx_trans descLe_trans)
      (leIdx_total descLe_total) _
  have htie : (List.take m (stableSortBy (leIdx descLe)
      entries.enum)).Pairwise
      (fun p q => ascLe p.2 q.2 = true → ascLe q.2 p.2 = true →
        p.1 ≤ q.1) := by
    have h2 := pairwise_tie_of_leIdx hsorted
    have h3 := h2.sublist (List.take_sublist m _)
    exact h3.imp (fun hpq ha1 ha2 => hpq ha2 ha1)
  rw [stableSortBy_map_snd _ htie, List.map_take, ← h1]

theorem keptEvents_length {m : Nat} {entries : List Event}
    (h : m < entries.length) : (keptEvents m entries).length = m := by
  unfold keptEvents
  rw [(stableSortBy_perm ascLe _).length_eq, List.length_take]
  have h2 := (stableSortBy_perm descLe entries).length_eq
  omega

theorem keptEvents_sorted (m : Nat) (entries : List Event) :
    (keptEvents m entries).Pairwise (fun a b : Event => a.1 ≤ b.1) := by
  unfold keptEvents
  have h := stableSortBy_pairwise ascLe_trans ascLe_total
    (List.take m (stableSortBy descLe entries))
  exact h.imp (fun hab => of_decide_eq_true hab)

theorem keptEvents_perm_dominance (m : Nat) (entries : List Event) :
    ∃ dropped, ((keptEvents m entries) ++ dropped).Perm entries ∧
      ∀ d ∈ dropped, ∀ k ∈ keptEvents m entries, d.1 ≤ k.1 := by
  refine ⟨List.drop m (stableSortBy descLe entries), ?_, ?_⟩
  · have hperm1 : (keptEvents m entries).Perm
        (List.take m (stableSortBy descLe entries)) :=
      stableSortBy_perm ascLe _
    refine (List.Perm.append_right _ hperm1).trans ?_
    rw [List.take_append_drop]
    exact stableSortBy_perm descLe entries
  · intro d hd k hk
    have hsorted : (stableSortBy descLe entries).Pairwise
        (fun a b => descLe a b = true) :=
      stableSortBy_pairwise descLe_trans descLe_total _
    have hk2 : k ∈ List.take m (stableSortBy descLe entries) :=
      (stableSortBy_perm ascLe _).mem_iff.mp hk
    have hsplit := List.pairwise_append.mp
      (by rw [List.take_append_drop m (stableSortBy descLe entries)]
          exact hsorted)
    exact of_decide_eq_true (hsplit.2.2 k hk2 d hd)

theorem keptEvents_subset {m : Nat} {entries : List Event} {k : Event}
    (hk : k ∈ keptEvents m entries) : k ∈ entries := by
  unfold keptEvents at hk
  have h1 := (stableSortBy_perm ascLe _).mem_iff.mp hk
  have h2 := (List.take_sublist m (stableSortBy descLe entries)).subset h1
  exact (stableSortBy_perm descLe entries).mem_iff.mp h2

theorem mem_keptEvents_of_strict_max {m : Nat} {entries : List Event}
    {x : Event} (hm : 0 < m) (hx : x ∈ entries)
    (hstrict : ∀ y ∈ entries, y = x ∨ y.1 < x.1) :
    x ∈ keptEvents m entries := by
  have hsperm := stableSortBy_perm descLe entries
  have hxs : x ∈ stableSortBy descLe entries := hsperm.mem_iff.mpr hx
  have hsorted : (stableSortBy descLe entries).Pairwise
      (fun a b => descLe a b = true) :=
    stableSortBy_pairwise descLe_trans descLe_total _
  obtain ⟨h, t, hs⟩ : ∃ h t, stableSortBy descLe entries = h :: t := by
    cases hcs : stableSortBy descLe entries with
    | nil => rw [hcs] at hxs; simp at hxs
    | cons h t => exact ⟨h, t, rfl⟩
  have hhx : h = x := by
    by_contra hne
    have hhmem : h ∈ entries := hsperm.mem_iff.mp (by rw [hs]; simp)
    rcases hstrict h hhmem with h1 | h2
    · exact hne h1
    · have hxt : x ∈ t := by
        rw [hs] at hxs
        rcases List.mem_cons.mp hxs with hx1 | hx2
        · exact absurd hx1.symm hne
        · exact hx2
      rw [hs] at hsorted
      have hle := (List.pairwise_cons.mp hsorted).1 x hxt
      have := of_decide_eq_true hle
      unfold descLe at this
      omega
  have htake : x ∈ List.take m (stableSortBy descLe entries) := by
    rw [hs, hhx]
    cases m with
    | zero => omega
    | succ k => simp [List.take]
  unfold keptEvents
  exact (stableSortBy_perm ascLe _).mem_iff.mpr htake

theorem trim_history_of_le {m : Nat} {content : List Char}
    (h : (parsedEvents content).length ≤ m) :
    trim_history m content = content := by
  unfold trim_history
  rw [if_pos h]

theorem trim_history_of_gt {m : Nat} {content : List Char}
    (h : m < (parsedEvents content).length) :
    trim_history m content =
      renderEvents (keptEvents m (parsedEvents content)) := by
  unfold trim_history
  rw [if_neg (by omega)]

/-! ## Lemmas: catalog construction -/

theorem normalize_entry_inv {ex : List (List Char)} {e : DesktopEntryData}
    {a : App} (h : normalize_entry ex e = some a) :
    ∃ name args, e.name = some name ∧ e.execArgs = some args ∧ args ≠ [] ∧
      name ∉ ex ∧
      a = { name := name, exec := joinSpace args, icon := e.icon,
            description := e.comment, keywords := e.keywords.getD [],
            terminal := e.terminal, launch := .direct args } := by
  unfold normalize_entry at h
  by_cases hnd : (e.noDisplay || e.hidden) = true
  · rw [if_pos hnd] at h
    simp at h
  · rw [if_neg hnd] at h
    cases hname : e.name with
    | none => rw [hname] at h; simp at h
    | some name =>
      rw [hname] at h
      dsimp only at h
      cases hargs : e.execArgs with
      | none => rw [hargs] at h; simp at h
      | some args =>
        rw [hargs] at h
        dsimp only at h
        by_cases he : args = []
        · rw [if_pos he] at h; simp at h
        · rw [if_neg he] at h
          by_cases hex : name ∈ ex
          · rw [if_pos hex] at h; simp at h
          · rw [if_neg hex] at h
            refine ⟨name, args, rfl, rfl, he, hex, ?_⟩
            injection h with h2
            exact h2.symm

theorem normalize_entry_of_empty (ex : List (List Char))
    (e : DesktopEntryData) (h : e.execArgs = some []) :
    normalize_entry ex e = none := by
  unfold normalize_entry
  by_cases hnd : (e.noDisplay || e.hidden) = true
  · rw [if_pos hnd]
  · rw [if_neg hnd]
    cases hname : e.name with
    | none => rfl
    | some name =>
      rw [h]
      dsimp only
      rw [if_pos rfl]

theorem mem_preApps {entries : List DesktopEntryData} {cfg : AppsConfig}
    {a : App} :
    a ∈ preApps entries cfg ↔
      (∃ e ∈ entries, normalize_entry cfg.exclude e = some a) ∨
      (∃ c ∈ cfg.custom, a = from_custom c) := by
  unfold preApps
  rw [List.mem_append, List.mem_filterMap, List.mem_map]
  constructor
  · rintro (⟨e, he, hne⟩ | ⟨c, hc, hce⟩)
    · exact Or.inl ⟨e, he, hne⟩
    · exact Or.inr ⟨c, hc, hce.symm⟩
  · rintro (⟨e, he, hne⟩ | ⟨c, hc, hce⟩)
    · exact Or.inl ⟨e, he, hne⟩
    · exact Or.inr ⟨c, hc, hce.symm⟩

theorem mem_discover_apps {entries : List DesktopEntryData}
    {cfg : AppsConfig} {a : App} :
    a ∈ discover_apps entries cfg ↔ a ∈ preApps entries cfg :=
  (stableSortBy_perm _ _).mem_iff

theorem discover_apps_pairwise (entries : List DesktopEntryData)
    (cfg : AppsConfig) :
    (discover_apps entries cfg).Pairwise (fun a b =>
      (b.name ∈ cfg.favorites → a.name ∈ cfg.favorites) ∧
      ((a.name ∈ cfg.favorites ↔ b.name ∈ cfg.favorites) →
        charsLe (lowerName a.name) (lowerName b.name) = true)) := by
  have h := stableSortBy_pairwise (appLe_trans cfg.favorites)
    (appLe_total cfg.favorites) (preApps entries cfg)
  refine h.imp ?_
  intro a b hab
  rw [appLe_eq] at hab
  by_cases ha : a.name ∈ cfg.favorites <;>
    by_cases hb : b.name ∈ cfg.favorites
  · rw [if_pos ha, if_pos hb] at hab
    exact ⟨fun _ => ha, fun _ => hab⟩
  · exact ⟨fun hbb => absurd hbb hb, fun hiff => absurd (hiff.mp ha) hb⟩
  · rw [if_neg ha, if_pos hb] at hab
    exact absurd hab (by simp)
  · rw [if_neg ha, if_neg hb] at hab
    exact ⟨fun hbb => absurd hbb hb, fun _ => hab⟩

theorem discover_apps_stable (entries : List DesktopEntryData)
    (cfg : AppsConfig) :
    discover_apps entries cfg =
      (stableSortBy (leIdx (appLe cfg.favorites))
        (preApps entries cfg).enum).map Prod.snd := by
  unfold discover_apps
  rw [stableSortBy_map_snd _ (enum_pairwise_tie _ _), List.enum_map_snd]

theorem eventsFor_map_strip {kept : List Event} {name : List Char} {u : Nat}
    (hu : u ∈ eventsFor (kept.map (fun e => (e.1, stripCR e.2))) name) :
    ∃ e ∈ kept, e.1 = u := by
  rcases mem_eventsFor.mp hu with ⟨e2, he2, _, hu2⟩
  rcases List.mem_map.mp he2 with ⟨e, he, hee⟩
  refine ⟨e, he, ?_⟩
  rw [← hu2, ← hee]

/-! ## Claim theorems -/

/-- C1: for every history file content, `load_history` maps each app
name to the maximum timestamp over the file's parsable lines for that
name (a line is parsable exactly when it splits at a tab with a `u64`
first field, as `parseLine` states); unparsable lines are skipped
silently, affecting neither the result nor the load.  The spec's two
concrete examples are included. -/
theorem load_history_latest_per_app :
    (∀ (content name : List Char),
      histLookup (load_history content) name
        = maxOf (eventsFor (parsedEvents content) name)) ∧
    histLookup (load_history exLoadContent) exFirefox = some 3000 ∧
    histLookup (load_history exLoadContent) exTerminalName = some 2000 ∧
    load_history exMalformed = [(exValidApp, 1500)] := by
  refine ⟨load_history_lookup, ?_, ?_, ?_⟩ <;> decide

/-- C3: the display-string field-code cleanup (modelled from the spec,
see `clean_exec`) strips field codes, collapses `%%`, preserves any
other `%x` verbatim: `"code %F --new-window"` yields
`"code  --new-window"` with its double space, `"app --ratio=50%x"` is
unchanged, and a command without `%` is always unchanged. -/
theorem exec_display_cleanup :
    clean_exec exRawWindow = exCleanWindow ∧
    clean_exec exPercentX = exPercentX ∧
    (∀ s : List Char, '%' ∉ s → clean_exec s = s) := by
  refine ⟨by decide, by decide, ?_⟩
  intro s hs
  induction s with
  | nil => rfl
  | cons c rest ih =>
    have hc : c ≠ '%' := fun h => hs (by simp [h])
    have hrest : '%' ∉ rest := fun h => hs (List.mem_cons_of_mem _ h)
    rw [clean_exec.eq_def]
    dsimp only
    rw [if_neg hc, ih hrest]

/-- Witness for C3's universally quantified part at a concrete
percent-free command line. -/
theorem exec_display_cleanup_witness : clean_exec exPlain = exPlain :=
  exec_display_cleanup.2.2 exPlain (by decide)

/-- C4 counterexample: with configuration `exCfgX` the name `X` is in
the exclude set, yet the catalog contains an app (the custom app) with
exactly that display name — exclusion does not extend to custom
apps. -/
theorem exclusion_claim_counterexample :
    (discover_apps [] exCfgX).map App.name = [exXName] ∧
    exXName ∈ exCfgX.exclude := by
  decide

/-- C4 (amended): an app whose display name is in the exclude set never
appears in the output as a *discovered* descriptor, even when that name
is also a favorite; any output app bearing an excluded name can only be
one of the configured custom apps, which bypass exclusion. -/
theorem excluded_name_only_custom (entries : List DesktopEntryData)
    (cfg : AppsConfig) (a : App) (ha : a ∈ discover_apps entries cfg)
    (hex : a.name ∈ cfg.exclude) :
    ∃ c ∈ cfg.custom, a = from_custom c := by
  rcases mem_preApps.mp (mem_discover_apps.mp ha) with ⟨e, _, hne⟩ | hcus
  · rcases normalize_entry_inv hne with ⟨name, args, _, _, _, hnotex, haeq⟩
    rw [haeq] at hex
    exact absurd hex hnotex
  · exact hcus

/-- Witness for C4's amended theorem: the only app with the excluded
name `X` in the `exCfgX` catalog is the custom app. -/
theorem excluded_name_only_custom_witness :
    ∃ c ∈ exCfgX.custom, from_custom exCustomX = from_custom c :=
  excluded_name_only_custom [] exCfgX (from_custom exCustomX)
    (by decide) (by decide)

/-- C7: launching a `Direct` strategy with an empty argv fails with
`InvalidInput` for every terminal wrapper, and no process-creation
outcome is ever produced. -/
theorem spawn_direct_empty_invalid :
    ∀ terminal : Option (List Char),
      spawn_direct [] terminal = .fail .invalidInput ∧
      ∀ (prog : List Char) (argv : List (List Char)),
        spawn_direct [] terminal ≠ .proc prog argv := by
  intro terminal
  refine ⟨rfl, ?_⟩
  intro prog argv h
  simp [spawn_direct] at h

/-- Witness for C7 at the concrete no-terminal instance. -/
theorem spawn_direct_empty_invalid_witness :
    spawn_direct [] none = .fail .invalidInput ∧
      spawn_direct [] none ≠ .proc [] [] :=
  ⟨(spawn_direct_empty_invalid none).1,
   (spawn_direct_empty_invalid none).2 [] []⟩

/-- C8 counterexample: with a writable special file (FIFO or device
node) at the history path, `record_launch` completes successfully —
`ensure_not_symlink` passes it and the `O_NOFOLLOW` append open
succeeds — yet the pre-state is neither an absent path nor a plain
regular file, so record does not proceed *only* from those two
pre-states. -/
theorem record_proceeds_claim_counterexample :
    record_launch_fs 0 [] .special = (.special, .ok ()) ∧
    PathState.special ≠ .absent ∧
    ∀ c, PathState.special ≠ .file c := by
  refine ⟨rfl, by simp, fun c => by simp⟩

/-- C8 (amended): when the history path is a symlink (by its own
symlink metadata — the model never resolves a target), `record_launch`
and `trim_history` both fail with `PermissionDenied` and leave the
path state unchanged; and a successful `record_launch` never comes
from a symlink or a directory pre-state (though it can come from a
writable special file, not only from absence or a regular file). -/
theorem history_symlink_guard :
    (∀ (ts : Nat) (name : List Char),
      record_launch_fs ts name .symlink
        = (.symlink, .error .permissionDenied)) ∧
    (∀ m : Nat,
      trim_history_fs m .symlink = (.symlink, .error .permissionDenied)) ∧
    (∀ (ts : Nat) (name : List Char) (st st2 : PathState),
      record_launch_fs ts name st = (st2, .ok ()) →
      st ≠ .symlink ∧ st ≠ .directory) := by
  refine ⟨fun _ _ => rfl, fun _ => rfl, ?_⟩
  intro ts name st st2 h
  cases st with
  | absent => exact ⟨by simp, by simp⟩
  | file c => exact ⟨by simp, by simp⟩
  | special => exact ⟨by simp, by simp⟩
  | symlink => simp [record_launch_fs] at h
  | directory => simp [record_launch_fs] at h

/-- Witness for C8's third part: recording onto an empty regular file
succeeds, and that pre-state is neither a symlink nor a directory. -/
theorem history_symlink_guard_witness :
    PathState.file [] ≠ PathState.symlink ∧
      PathState.file [] ≠ PathState.directory :=
  history_symlink_guard.2.2 0 [] (.file [])
    (.file (record_pure 0 [] [])) rfl

/-- C10: `load_history` yields the empty mapping whenever opening the
file fails, whatever the error kind — not only `NotFound` — and never
surfaces an error (its result type carries none); on a successful open
with clean line reads it agrees with the pure content parse. -/
theorem load_history_error_swallowing :
    (∀ e : IOErrKind, load_history_from_open (.error e) = []) ∧
    (∀ content : List Char,
      load_history_from_open (.ok ((strLines content).map Except.ok))
        = load_history content) := by
  refine ⟨fun _ => rfl, ?_⟩
  intro content
  unfold load_history_from_open load_history
  dsimp only
  have haux : ∀ (lines : List (List Char)) (h : Hist),
      (lines.map Except.ok).foldl
        (fun (h : Hist) (lr : Except IOErrKind (List Char)) =>
          match lr with
          | .error _ => h
          | .ok line => loadStep h line) h
      = lines.foldl loadStep h := by
    intro lines
    induction lines with
    | nil => intro h; rfl
    | cons l ls ih =>
      intro h
      simp only [List.map_cons, List.foldl_cons]
      exact ih _
  exact haux _ []

/-- C5: the catalog is ordered favorites-first, case-insensitive
ascending within each group; ties keep their original relative order
(the output equals the undecorated projection of a sort by the strict
index-refined comparator); the Zed/Alacritty/Firefox/ark example comes
out `[Alacritty, Zed, ark, Firefox]`. -/
theorem catalog_ordering :
    (∀ (entries : List DesktopEntryData) (cfg : AppsConfig),
      (discover_apps entries cfg).Pairwise (fun a b =>
        (b.name ∈ cfg.favorites → a.name ∈ cfg.favorites) ∧
        ((a.name ∈ cfg.favorites ↔ b.name ∈ cfg.favorites) →
          charsLe (lowerName a.name) (lowerName b.name) = true))) ∧
    (∀ (entries : List DesktopEntryData) (cfg : AppsConfig),
      discover_apps entries cfg =
        (stableSortBy (leIdx (appLe cfg.favorites))
          (preApps entries cfg).enum).map Prod.snd) ∧
    (discover_apps exOrderEntries exCfgOrder).map App.name = exOrderNames :=
  ⟨discover_apps_pairwise, discover_apps_stable, by decide⟩

/-- Witness for C5 at the ordering example. -/
theorem catalog_ordering_witness :
    (discover_apps exOrderEntries exCfgOrder).Pairwise (fun a b =>
      (b.name ∈ exCfgOrder.favorites → a.name ∈ exCfgOrder.favorites) ∧
      ((a.name ∈ exCfgOrder.favorites ↔ b.name ∈ exCfgOrder.favorites) →
        charsLe (lowerName a.name) (lowerName b.name) = true)) :=
  catalog_ordering.1 exOrderEntries exCfgOrder

/-- C6: custom apps always carry `ShellLine` with their configured exec
verbatim; an accepted descriptor always carries `Direct` with its
non-empty token vector; a descriptor whose command parses to zero
tokens is rejected; hence no app in any catalog carries a `Direct`
strategy with an empty argv. -/
theorem launch_strategy_invariant :
    (∀ c : CustomApp, (from_custom c).launch = .shell c.exec) ∧
    (∀ (ex : List (List Char)) (e : DesktopEntryData) (a : App),
      normalize_entry ex e = some a →
      ∃ args, e.execArgs = some args ∧ args ≠ [] ∧
        a.launch = .direct args) ∧
    (∀ (ex : List (List Char)) (e : DesktopEntryData),
      e.execArgs = some [] → normalize_entry ex e = none) ∧
    (∀ (entries : List DesktopEntryData) (cfg : AppsConfig) (a : App)
      (args : List (List Char)), a ∈ discover_apps entries cfg →
      a.launch = .direct args → args ≠ []) := by
  refine ⟨fun _ => rfl, ?_, normalize_entry_of_empty, ?_⟩
  · intro ex e a h
    rcases normalize_entry_inv h with ⟨name, args, _, hargs, hne, _, haeq⟩
    refine ⟨args, hargs, hne, ?_⟩
    rw [haeq]
  · intro entries cfg a args ha hdir
    rcases mem_preApps.mp (mem_discover_apps.mp ha) with
      ⟨e, _, hne⟩ | ⟨c, _, hceq⟩
    · rcases normalize_entry_inv hne with ⟨name, args2, _, _, hne2, _, haeq⟩
      rw [haeq] at hdir
      dsimp only at hdir
      injection hdir with h2
      rw [← h2]
      exact hne2
    · rw [hceq] at hdir
      exact absurd hdir (by simp [from_custom])

/-- Witness for C6 at concrete instances: a custom app, an accepted
descriptor, a zero-token descriptor, and a catalog app. -/
theorem launch_strategy_invariant_witness :
    (from_custom exCustomScript).launch = .shell exCustomScript.exec ∧
    (∃ args, (exEntry exZedName).execArgs = some args ∧ args ≠ [] ∧
      exZedApp.launch = .direct args) ∧
    normalize_entry [] exEntryEmptyExec = none ∧
    [exZedName] ≠ ([] : List (List Char)) :=
  ⟨launch_strategy_invariant.1 exCustomScript,
   launch_strategy_invariant.2.1 [] (exEntry exZedName) exZedApp (by decide),
   launch_strategy_invariant.2.2.1 [] exEntryEmptyExec rfl,
   launch_strategy_invariant.2.2.2 exOrderEntries exCfgOrder exZedApp
     [exZedName] (by decide) rfl⟩

/-- C2: when at most `maxLines` events parse, `trim_history` leaves the
content untouched; when more do, it rewrites the file to exactly the
`maxLines` events of largest timestamp — ties resolved toward the
earlier file position, as the strict index-decorated selection
`specKept` states — written ascending by timestamp, and every dropped
event's timestamp is at most every kept one's. -/
theorem trim_history_correct (maxLines : Nat) (content : List Char) :
    ((parsedEvents content).length ≤ maxLines →
      trim_history maxLines content = content) ∧
    (maxLines < (parsedEvents content).length →
      trim_history maxLines content
          = renderEvents (keptEvents maxLines (parsedEvents content)) ∧
        keptEvents maxLines (parsedEvents content)
          = specKept maxLines (parsedEvents content) ∧
        (keptEvents maxLines (parsedEvents content)).length = maxLines ∧
        (keptEvents maxLines (parsedEvents content)).Pairwise
          (fun a b : Event => a.1 ≤ b.1) ∧
        ∃ dropped,
          ((keptEvents maxLines (parsedEvents content)) ++ dropped).Perm
              (parsedEvents content) ∧
          ∀ d ∈ dropped,
            ∀ k ∈ keptEvents maxLines (parsedEvents content),
              d.1 ≤ k.1) := by
  constructor
  · exact trim_history_of_le
  · intro h
    exact ⟨trim_history_of_gt h, keptEvents_eq_specKept _ _,
      keptEvents_length h, keptEvents_sorted _ _,
      keptEvents_perm_dominance _ _⟩

/-- Witness for C2: a three-event ledger is untouched at
`max_lines = 5` and rewritten to its kept selection at
`max_lines = 1`. -/
theorem trim_history_correct_witness :
    trim_history 5 exThreeEvents = exThreeEvents ∧
    trim_history 1 exThreeEvents =
      renderEvents (keptEvents 1 (parsedEvents exThreeEvents)) :=
  ⟨(trim_history_correct 5 exThreeEvents).1 (by decide),
   ((trim_history_correct 1 exThreeEvents).2 (by decide)).1⟩

/-- C9 counterexample: the name `"a\r"` contains no tab and no newline
byte, and the prior ledger is empty (so no prior event has a larger
timestamp), yet recording it and loading does not surface it: the line
reader strips the trailing carriage return, so the recorded name is
absent from the loaded mapping. -/
theorem record_load_claim_counterexample :
    ('\t' ∉ exCRName ∧ '\n' ∉ exCRName ∧ parsedEvents [] = []) ∧
    histLookup (load_history (record_pure 456 exCRName [])) exCRName
      ≠ some 456 := by
  decide

/-- C9 (amended): for a name with no tab and no newline that does not
end in a carriage return, recording onto a well-formed (empty or
newline-terminated) ledger and immediately loading yields the recorded
timestamp as the name's latest, provided no prior event for the name
has a larger timestamp and, in case the append pushes the file past the
compaction threshold, the new timestamp strictly exceeds every prior
event's. -/
theorem record_then_load (ts : Nat) (name c : List Char)
    (hts : ts < 2 ^ 64)
    (_htab : '\t' ∉ name) (hnl : '\n' ∉ name)
    (hcr : name.getLast? ≠ some '\r')
    (hwf : endsNewline c = true)
    (hprior : ∀ e ∈ parsedEvents c, e.2 = name → e.1 ≤ ts)
    (htrim : utf8Len (c ++ renderLine ts name) ≤ MAX_HISTORY_LINES * 100 ∨
             ∀ e ∈ parsedEvents c, e.1 < ts) :
    record_launch_fs ts name (.file c)
        = (.file (record_pure ts name c), .ok ()) ∧
    histLookup (load_history (record_pure ts name c)) name = some ts := by
  refine ⟨rfl, ?_⟩
  have hpe : parsedEvents (c ++ renderLine ts name)
      = parsedEvents c ++ [(ts, name)] :=
    parsedEvents_record hts hnl hcr hwf
  have hlook : histLookup (load_history (c ++ renderLine ts name)) name
      = some ts := by
    rw [load_history_lookup, hpe, eventsFor_append]
    have hone : eventsFor [(ts, name)] name = [ts] := by
      simp [eventsFor]
    rw [hone]
    apply maxOf_eq_some
    · simp
    · intro u hu
      rcases List.mem_append.mp hu with h1 | h2
      · rcases mem_eventsFor.mp h1 with ⟨e, he, hn, hu2⟩
        rw [← hu2]
        exact hprior e he hn
      · simp at h2
        omega
  unfold record_pure
  dsimp only
  by_cases hbig : MAX_HISTORY_LINES * 100 < utf8Len (c ++ renderLine ts name)
  · rw [if_pos hbig]
    have hstrict : ∀ e ∈ parsedEvents c, e.1 < ts := by
      rcases htrim with h | h
      · exact absurd hbig (by omega)
      · exact h
    by_cases hlen : (parsedEvents (c ++ renderLine ts name)).length
        ≤ MAX_HISTORY_LINES
    · rw [trim_history_of_le hlen]
      exact hlook
    · rw [trim_history_of_gt (by omega)]
      have hx : (ts, name) ∈ parsedEvents (c ++ renderLine ts name) := by
        rw [hpe]
        simp
      have hstrictAll :
          ∀ y ∈ parsedEvents (c ++ renderLine ts name),
            y = (ts, name) ∨ y.1 < ts := by
        intro y hy
        rw [hpe] at hy
        rcases List.mem_append.mp hy with h1 | h2
        · right
          exact hstrict y h1
        · left
          simpa using h2
      have hmem : (ts, name) ∈ keptEvents MAX_HISTORY_LINES
          (parsedEvents (c ++ renderLine ts name)) :=
        mem_keptEvents_of_strict_max (by decide) hx hstrictAll
      have hub : ∀ k ∈ keptEvents MAX_HISTORY_LINES
          (parsedEvents (c ++ renderLine ts name)), k.1 ≤ ts := by
        intro k hk
        rcases hstrictAll k (keptEvents_subset hk) with h1 | h2
        · rw [h1]
        · omega
      have hkvalid : ∀ e ∈ keptEvents MAX_HISTORY_LINES
          (parsedEvents (c ++ renderLine ts name)),
          e.1 < 2 ^ 64 ∧ '\n' ∉ e.2 := by
        intro e he
        exact parsedEvents_mem (keptEvents_subset he)
      rw [load_history_lookup, parsedEvents_renderEvents hkvalid]
      apply maxOf_eq_some
      · apply mem_eventsFor.mpr
        refine ⟨(ts, stripCR name), ?_, ?_, rfl⟩
        · exact List.mem_map.mpr ⟨(ts, name), hmem, rfl⟩
        · exact stripCR_of_getLast hcr
      · intro u hu
        rcases eventsFor_map_strip hu with ⟨e, he, heu⟩
        rw [← heu]
        exact hub e he
  · rw [if_neg hbig]
    exact hlook

/-- Witness for C9's amended theorem: recording `(200, foo)` onto a
one-event ledger and loading yields `foo ↦ 200`. -/
theorem record_then_load_witness :
    record_launch_fs 200 exFoo (.file exPrior)
        = (.file (record_pure 200 exFoo exPrior), .ok ()) ∧
    histLookup (load_history (record_pure 200 exFoo exPrior)) exFoo
      = some 200 :=
  record_then_load 200 exFoo exPrior (by decide) (by decide) (by decide)
    (by decide) (by decide) (by decide) (Or.inl (by decide))

end Yeet
